import Mathlib

/-!
Shallow embedding of the `rsearch` indexing core (`src/lib.rs`): the
analyzer, the build-side `IndexWriter` (`add`, `write`), the query-side
`Index` (`read`, `search`), and the binary codec connecting them.

Byte streams are modelled as `List Nat` (each element one octet); machine
integers are `Nat` with explicit range checks where the source performs
`u32::try_from` / `u16::try_from`; fallible operations return
`Option` / `Except`.  Rust `String`s are Lean `String`s (both are sequences
of Unicode scalar values), and the UTF-8 encoding performed by
`str::as_bytes` / validated by `read_to_string` is modelled by an explicit
UTF-8 encoder and strict validating decoder below.
-/

/-- Big-endian bytes of a `u16`, as written by `u16::to_be_bytes`. -/
def be16 (n : Nat) : List Nat :=
  [n / 256 % 256, n % 256]

/-- Big-endian bytes of a `u32`, as written by `u32::to_be_bytes`. -/
def be32 (n : Nat) : List Nat :=
  [n / 16777216 % 256, n / 65536 % 256, n / 256 % 256, n % 256]

/-- Function `read_u32` from `lib.rs`: `read_exact` of 4 bytes then
`u32::from_be_bytes`; fails (Err) if fewer than 4 bytes remain. -/
def read_u32 (bs : List Nat) : Option (Nat × List Nat) :=
  match bs with
  | b0 :: b1 :: b2 :: b3 :: rest =>
      some (((b0 * 256 + b1) * 256 + b2) * 256 + b3, rest)
  | _ => none

/-- Function `read_u16` from `lib.rs`: `read_exact` of 2 bytes then
`u16::from_be_bytes`. -/
def read_u16 (bs : List Nat) : Option (Nat × List Nat) :=
  match bs with
  | b0 :: b1 :: rest => some (b0 * 256 + b1, rest)
  | _ => none

/-- UTF-8 encoding of one Unicode scalar value, as produced by Rust
`str::as_bytes` for one `char`. -/
def utf8EncodeChar (c : Char) : List Nat :=
  let n := c.toNat
  if n < 128 then [n]
  else if n < 2048 then [192 + n / 64, 128 + n % 64]
  else if n < 65536 then
    [224 + n / 4096, 128 + n / 64 % 64, 128 + n % 64]
  else
    [240 + n / 262144, 128 + n / 4096 % 64, 128 + n / 64 % 64, 128 + n % 64]

/-- UTF-8 encoding of a character list. -/
def utf8EncodeList : List Char → List Nat
  | [] => []
  | c :: cs => utf8EncodeChar c ++ utf8EncodeList cs

/-- The byte representation of a Rust `String` (`str::as_bytes`);
`.len()` of a Rust string is the length of this list. -/
def strBytes (s : String) : List Nat :=
  utf8EncodeList s.data

/-- Strict UTF-8 decoding of one scalar value from the head of a byte
stream: rejects continuation-byte leads, overlong encodings, surrogates
and out-of-range values, exactly as Rust's UTF-8 validation does.
Returns the decoded character and the remaining bytes. -/
def utf8DecodeChar (bs : List Nat) : Option (Char × List Nat) :=
  match bs with
  | [] => none
  | b0 :: rest =>
    if b0 < 128 then some (Char.ofNat b0, rest)
    else if b0 < 224 then
      match rest with
      | b1 :: rest1 =>
        if 192 ≤ b0 ∧ 128 ≤ b1 ∧ b1 < 192 then
          let v := (b0 - 192) * 64 + (b1 - 128)
          if 128 ≤ v then some (Char.ofNat v, rest1) else none
        else none
      | [] => none
    else if b0 < 240 then
      match rest with
      | b1 :: b2 :: rest2 =>
        if (128 ≤ b1 ∧ b1 < 192) ∧ (128 ≤ b2 ∧ b2 < 192) then
          let v := (b0 - 224) * 4096 + (b1 - 128) * 64 + (b2 - 128)
          if 2048 ≤ v ∧ (v < 55296 ∨ 57344 ≤ v) then
            some (Char.ofNat v, rest2)
          else none
        else none
      | _ => none
    else if b0 < 248 then
      match rest with
      | b1 :: b2 :: b3 :: rest3 =>
        if (128 ≤ b1 ∧ b1 < 192) ∧ (128 ≤ b2 ∧ b2 < 192) ∧
            (128 ≤ b3 ∧ b3 < 192) then
          let v := (b0 - 240) * 262144 + (b1 - 128) * 4096 +
            (b2 - 128) * 64 + (b3 - 128)
          if 65536 ≤ v ∧ v < 1114112 then some (Char.ofNat v, rest3)
          else none
        else none
      | _ => none
    else none

/-- Decoding loop with fuel (the fuel is instantiated with the byte
count; every step consumes at least one byte). -/
def utf8DecodeLoop : Nat → List Nat → Option (List Char)
  | 0, bs => if bs.isEmpty then some [] else none
  | fuel + 1, bs =>
    if bs.isEmpty then some []
    else
      match utf8DecodeChar bs with
      | none => none
      | some (c, rest) => (utf8DecodeLoop fuel rest).map (c :: ·)

/-- Full strict UTF-8 decoding of a byte list, as performed by
`Read::read_to_string`: succeeds iff the whole list is valid UTF-8. -/
def utf8Decode (bs : List Nat) : Option (List Char) :=
  utf8DecodeLoop bs.length bs

theorem utf8EncodeChar_ne_nil (c : Char) : utf8EncodeChar c ≠ [] := by
  simp only [utf8EncodeChar]
  by_cases h1 : c.toNat < 128
  · simp [h1]
  · by_cases h2 : c.toNat < 2048
    · simp [h1, h2]
    · by_cases h3 : c.toNat < 65536 <;> simp [h1, h2, h3]

theorem utf8DecodeChar_encode (c : Char) (rest : List Nat) :
    utf8DecodeChar (utf8EncodeChar c ++ rest) = some (c, rest) := by
  have hvalid : c.toNat < 55296 ∨ (57344 ≤ c.toNat ∧ c.toNat < 1114112) := by
    have h := c.valid
    rcases h with h | ⟨h1, h2⟩
    · exact Or.inl h
    · exact Or.inr ⟨h1, h2⟩
  by_cases h1 : c.toNat < 128
  · simp only [utf8EncodeChar, if_pos h1, List.cons_append, List.nil_append,
      utf8DecodeChar, Char.ofNat_toNat]
  · by_cases h2 : c.toNat < 2048
    · simp only [utf8EncodeChar, if_neg h1, if_pos h2, List.cons_append,
        List.nil_append, utf8DecodeChar]
      rw [if_neg (by omega), if_pos (by omega), if_pos (by omega),
        if_pos (by omega)]
      have hv : (192 + c.toNat / 64 - 192) * 64 + (128 + c.toNat % 64 - 128)
          = c.toNat := by omega
      rw [hv, Char.ofNat_toNat]
    · by_cases h3 : c.toNat < 65536
      · simp only [utf8EncodeChar, if_neg h1, if_neg h2, if_pos h3,
          List.cons_append, List.nil_append, utf8DecodeChar]
        rw [if_neg (by omega), if_neg (by omega), if_pos (by omega),
          if_pos (by constructor <;> omega)]
        have hv : (224 + c.toNat / 4096 - 224) * 4096 +
            (128 + c.toNat / 64 % 64 - 128) * 64 + (128 + c.toNat % 64 - 128)
            = c.toNat := by omega
        rw [hv, if_pos (by omega), Char.ofNat_toNat]
      · simp only [utf8EncodeChar, if_neg h1, if_neg h2, if_neg h3,
          List.cons_append, List.nil_append, utf8DecodeChar]
        rw [if_neg (by omega), if_neg (by omega), if_neg (by omega),
          if_pos (by omega), if_pos (by refine ⟨⟨?_, ?_⟩, ⟨?_, ?_⟩, ?_, ?_⟩ <;> omega)]
        have hv : (240 + c.toNat / 262144 - 240) * 262144 +
            (128 + c.toNat / 4096 % 64 - 128) * 4096 +
            (128 + c.toNat / 64 % 64 - 128) * 64 + (128 + c.toNat % 64 - 128)
            = c.toNat := by omega
        rw [hv, if_pos (by omega), Char.ofNat_toNat]

theorem utf8DecodeLoop_encode (cs : List Char) :
    ∀ fuel, cs.length ≤ fuel →
      utf8DecodeLoop fuel (utf8EncodeList cs) = some cs := by
  induction cs with
  | nil =>
    intro fuel _
    cases fuel <;> simp [utf8DecodeLoop, utf8EncodeList]
  | cons c cs ih =>
    intro fuel hfuel
    match fuel with
    | 0 => simp at hfuel
    | fuel + 1 =>
      have hne : (utf8EncodeChar c ++ utf8EncodeList cs).isEmpty = false := by
        have := utf8EncodeChar_ne_nil c
        cases henc : utf8EncodeChar c with
        | nil => exact absurd henc this
        | cons b bs => simp
      simp only [utf8EncodeList, utf8DecodeLoop, hne, Bool.false_eq_true,
        if_false, utf8DecodeChar_encode c (utf8EncodeList cs)]
      rw [ih fuel (by simpa using hfuel)]
      rfl

theorem utf8EncodeList_length_ge (cs : List Char) :
    cs.length ≤ (utf8EncodeList cs).length := by
  induction cs with
  | nil => simp [utf8EncodeList]
  | cons c cs ih =>
    simp only [utf8EncodeList, List.length_append, List.length_cons]
    have : 1 ≤ (utf8EncodeChar c).length := by
      cases henc : utf8EncodeChar c with
      | nil => exact absurd henc (utf8EncodeChar_ne_nil c)
      | cons b bs => simp
    omega

/-- UTF-8 round-trip: decoding an encoded character list succeeds and
yields the original list. -/
theorem utf8Decode_encode (cs : List Char) :
    utf8Decode (utf8EncodeList cs) = some cs :=
  utf8DecodeLoop_encode cs _ (utf8EncodeList_length_ge cs)

theorem utf8Decode_strBytes (s : String) :
    utf8Decode (strBytes s) = some s.data :=
  utf8Decode_encode s.data

theorem read_u32_be32 (n : Nat) (rest : List Nat) (h : n < 4294967296) :
    read_u32 (be32 n ++ rest) = some (n, rest) := by
  simp only [be32, List.cons_append, List.nil_append, read_u32]
  have : ((n / 16777216 % 256 * 256 + n / 65536 % 256) * 256 +
      n / 256 % 256) * 256 + n % 256 = n := by omega
  rw [this]

theorem read_u16_be16 (n : Nat) (rest : List Nat) (h : n < 65536) :
    read_u16 (be16 n ++ rest) = some (n, rest) := by
  simp only [be16, List.cons_append, List.nil_append, read_u16]
  have : n / 256 % 256 * 256 + n % 256 = n := by omega
  rw [this]

/-! ## Analyzer

The source's `analyze` uses the `unicode-segmentation` crate's
`unicode_words` and `str::to_lowercase`.  Those collaborators are not part
of this repository; they are modelled here (ASCII-faithfully) from the
spec's description: locale-independent word segmentation and per-character
lowercasing. -/

/-- Modelled from the spec: membership of a character in a Unicode word
token (restricted to the ASCII alphanumeric range), standing in for the
`unicode-segmentation` crate's word-character classification, which is
external to this repository. -/
def isWordChar (c : Char) : Bool :=
  decide ((48 ≤ c.toNat ∧ c.toNat ≤ 57) ∨ (65 ≤ c.toNat ∧ c.toNat ≤ 90) ∨
    (97 ≤ c.toNat ∧ c.toNat ≤ 122))

/-- Modelled from the spec: lowercasing of a single character (ASCII
range), standing in for the mapping applied by `str::to_lowercase`, which
is external to this repository. -/
def lowerChar (c : Char) : Char :=
  if 65 ≤ c.toNat ∧ c.toNat ≤ 90 then Char.ofNat (c.toNat + 32) else c

/-- Modelled from the spec: `str::to_lowercase` (external to this
repository) — lowercases every character. -/
def to_lowercase (s : String) : String :=
  ⟨s.data.map lowerChar⟩

/-- Word-splitting loop: `cur` is the reversed current word ([] when not
inside a word); emits maximal runs of word characters. -/
def wordsAux : List Char → List Char → List (List Char)
  | cur, [] => if cur.isEmpty then [] else [cur.reverse]
  | cur, c :: cs =>
    if isWordChar c then wordsAux (c :: cur) cs
    else if cur.isEmpty then wordsAux [] cs
    else cur.reverse :: wordsAux [] cs

/-- Modelled from the spec: the `unicode_words` iterator of the
`unicode-segmentation` crate (external to this repository) — the maximal
word-character runs of the string, in order. -/
def unicode_words (s : String) : List String :=
  (wordsAux [] s.data).map String.mk

/-- Collection as `itertools::unique` / `HashSet`: keeps the first occurrence
of each element, preserving order of first occurrence. -/
def uniqueAux {α : Type} [DecidableEq α] (seen : List α) : List α → List α
  | [] => []
  | a :: rest =>
    if a ∈ seen then uniqueAux seen rest else a :: uniqueAux (a :: seen) rest

/-- Keep-first deduplication, as performed by `itertools::unique` (and, up
to its unspecified order, by collecting into a `HashSet`). -/
def itertoolsUnique {α : Type} [DecidableEq α] (l : List α) : List α :=
  uniqueAux [] l

/-- Structure `Document` from `lib.rs`. -/
structure Document where
  content : String
  deriving Repr, DecidableEq

/-- Type `PostingsList = HashMap<String, Vec<usize>>`, modelled as an
association list; the build path keeps its keys distinct. -/
abbrev PostingsList : Type := List (String × List Nat)

/-- Structure `AnalyzedDocument` from `lib.rs`; `terms` models the `HashSet` of
normalized terms (the set's lack of duplicates becomes a `Nodup`
hypothesis where it matters). -/
structure AnalyzedDocument where
  terms : List String
  content : String

/-- Function `analyze` from `lib.rs`: Unicode word segmentation, per-word
lowercasing, collection into a term set; the content is kept verbatim. -/
def analyze (content : String) : AnalyzedDocument :=
  { terms := itertoolsUnique ((unicode_words content).map to_lowercase),
    content := content }

/-- Structure `Index` from `lib.rs`. -/
structure Index where
  docs : List Document
  postings : PostingsList
  deriving DecidableEq

/-- Lookup as `HashMap::get` on the association-list model (first match). -/
def lookupPL (k : String) : PostingsList → Option (List Nat)
  | [] => none
  | (k', v) :: rest => if k' = k then some v else lookupPL k rest

/-- Insertion as `HashMap::insert` on the association-list model: replaces the value
at an existing key, otherwise appends the binding. -/
def insertPL (k : String) (v : List Nat) : PostingsList → PostingsList
  | [] => [(k, v)]
  | (k', v') :: rest =>
    if k' = k then (k, v) :: rest else (k', v') :: insertPL k v rest

/-- Error type `IndexError` from `lib.rs` (the wrapped `io::Error` sources carry no
modellable content and are omitted; the attribution fields are kept). -/
inductive IndexError where
  | unableToReadPostingListSize
  | unableToReadTermSize (term_id : Nat)
  | unableToReadTerm (term_id : Nat)
  | unableToReadNumberOfDocIds (term : String) (term_id : Nat)
  | unableToReadDocId (term : String) (term_id : Nat) (doc_index : Nat)
  | unableToReadNumberOfDocs
  | unableToReadDocSize (doc_id : Nat)
  | unableToReadDocContent (doc_id : Nat)
  deriving Repr, DecidableEq

/-- The doc-id loop of `Index::read`: reads `n` big-endian `u32` doc ids,
attributing a failure to the doc slot `doc_index` inside term `term_id`. -/
def readDocIds (term : String) (term_id : Nat) :
    Nat → Nat → List Nat → Except IndexError (List Nat × List Nat)
  | _, 0, bs => .ok ([], bs)
  | doc_index, n + 1, bs =>
    match read_u32 bs with
    | none => .error (.unableToReadDocId term term_id doc_index)
    | some (d, bs1) =>
      match readDocIds term term_id (doc_index + 1) n bs1 with
      | .error e => .error e
      | .ok (ds, rest) => .ok (d :: ds, rest)

/-- One term record of `Index::read`: `u16` term byte length, up to that
many bytes validated as UTF-8 (`Read::take` + `read_to_string`, which
accepts a short read), `u32` doc-id count, then the doc ids. -/
def readTermEntry (term_id : Nat) (bs : List Nat) :
    Except IndexError ((String × List Nat) × List Nat) :=
  match read_u16 bs with
  | none => .error (.unableToReadTermSize term_id)
  | some (term_size, bs1) =>
    match utf8Decode (bs1.take term_size) with
    | none => .error (.unableToReadTerm term_id)
    | some cs =>
      let term : String := ⟨cs⟩
      match read_u32 (bs1.drop term_size) with
      | none => .error (.unableToReadNumberOfDocIds term term_id)
      | some (num_doc_ids, bs2) =>
        match readDocIds term term_id 0 num_doc_ids bs2 with
        | .error e => .error e
        | .ok (doc_ids, rest) => .ok ((term, doc_ids), rest)

/-- The term loop of `Index::read`: reads `n` term records, inserting each
into the postings map in order. -/
def readTerms (term_id : Nat) (acc : PostingsList) :
    Nat → List Nat → Except IndexError (PostingsList × List Nat)
  | 0, bs => .ok (acc, bs)
  | n + 1, bs =>
    match readTermEntry term_id bs with
    | .error e => .error e
    | .ok ((term, doc_ids), rest) =>
      readTerms (term_id + 1) (insertPL term doc_ids acc) n rest

/-- The document loop of `Index::read`: `u32` content byte length, then up
to that many bytes validated as UTF-8. -/
def readDocs (doc_id : Nat) :
    Nat → List Nat → Except IndexError (List Document × List Nat)
  | 0, bs => .ok ([], bs)
  | n + 1, bs =>
    match read_u32 bs with
    | none => .error (.unableToReadDocSize doc_id)
    | some (content_size, bs1) =>
      match utf8Decode (bs1.take content_size) with
      | none => .error (.unableToReadDocContent doc_id)
      | some cs =>
        match readDocs (doc_id + 1) n (bs1.drop content_size) with
        | .error e => .error e
        | .ok (ds, rest) => .ok ({ content := ⟨cs⟩ } :: ds, rest)

/-- Function `Index::read` from `lib.rs`. -/
def Index.read (bs : List Nat) : Except IndexError Index :=
  match read_u32 bs with
  | none => .error .unableToReadPostingListSize
  | some (num_terms, bs1) =>
    match readTerms 0 [] num_terms bs1 with
    | .error e => .error e
    | .ok (postings, bs2) =>
      match read_u32 bs2 with
      | none => .error .unableToReadNumberOfDocs
      | some (num_docs, bs3) =>
        match readDocs 0 num_docs bs3 with
        | .error e => .error e
        | .ok (docs, _) => .ok { docs := docs, postings := postings }

/-- Tokenization of `Index::search`: lowercase the whole query, segment into
words, keep only the first occurrence of each token
(`query.to_lowercase().unicode_words().unique()`). -/
def searchTokens (query : String) : List String :=
  itertoolsUnique (unicode_words (to_lowercase query))

/-- The flat-map step of `search`: for each token in order, the looked-up
posting list if any (`.map(get).filter(is_some).flat_map(unwrap)`). -/
def gatherIds (postings : PostingsList) : List String → List Nat
  | [] => []
  | t :: ts => ((lookupPL t postings).getD []) ++ gatherIds postings ts

/-- The doc-id sequence produced by `Index::search` before document
lookup: flat-mapped posting lists of the deduplicated query tokens, then
`unique()` over doc ids. -/
def Index.searchIds (idx : Index) (query : String) : List Nat :=
  itertoolsUnique (gatherIds idx.postings (searchTokens query))

/-- Document lookup loop of `search`: `self.docs[*doc_id]` panics when the
id is out of range, modelled as `none`. -/
def getDocs (docs : List Document) : List Nat → Option (List Document)
  | [] => some []
  | i :: is =>
    match docs.get? i with
    | none => none
    | some d => (getDocs docs is).map (d :: ·)

/-- Function `Index::search` from `lib.rs` (returning the documents by value; a
panic from an out-of-range posting id is modelled as `none`). -/
def Index.search (idx : Index) (query : String) : Option (List Document) :=
  getDocs idx.docs (idx.searchIds query)

/-- Error type `IndexWriterError` from `lib.rs`, restricted to the `DownCast`
variants: the sink of the model is a pure byte list, so the `io::Error`
write/flush variants cannot occur. -/
inductive IndexWriterError where
  | unableToDownCastPostingsLength (len : Nat)
  | unableToDownCastTermLength (term : String) (len : Nat)
  | unableToDownCastNumberOfDocIds (num_docs : Nat)
  | unableToDownCastDocId (doc_id : Nat)
  | unableToDownCastNumberOfDocs (num_docs : Nat)
  | unableToDownCastDocLength (content_len : Nat)
  deriving Repr, DecidableEq

/-- Structure `IndexWriter` from `lib.rs`. -/
structure IndexWriter where
  docs : List Document
  postings : PostingsList
  deriving DecidableEq

/-- Constructor `IndexWriter::default()`. -/
def IndexWriter.default : IndexWriter :=
  { docs := [], postings := [] }

/-- Conversion `From<IndexWriter> for Index`: a pure data move. -/
def Index.ofWriter (w : IndexWriter) : Index :=
  { docs := w.docs, postings := w.postings }

/-- The `entry(term).or_insert_with(Vec::new).push(doc_id)` step of
`IndexWriter::add`. -/
def addTermToPostings (term : String) (doc_id : Nat) :
    PostingsList → PostingsList
  | [] => [(term, [doc_id])]
  | (k, v) :: rest =>
    if k = term then (k, v ++ [doc_id]) :: rest
    else (k, v) :: addTermToPostings term doc_id rest

/-- Function `IndexWriter::add` from `lib.rs`: the new document's id is
`docs.len()` before the push; every term of the analyzed document gets
that id appended to its posting list; then the document is pushed. -/
def IndexWriter.add (w : IndexWriter) (doc : AnalyzedDocument) : IndexWriter :=
  { docs := w.docs ++ [{ content := doc.content }],
    postings :=
      doc.terms.foldl (fun p t => addTermToPostings t w.docs.length p)
        w.postings }

/-- A sequence of `add` calls starting from the default writer. -/
def addAll (ds : List AnalyzedDocument) : IndexWriter :=
  ds.foldl IndexWriter.add IndexWriter.default

/-- The doc-id loop of `IndexWriter::write`: each id is range-checked by
`u32::try_from` then written big-endian. -/
def writeDocIds : List Nat → Except IndexWriterError (List Nat)
  | [] => .ok []
  | d :: ds =>
    if d < 4294967296 then
      match writeDocIds ds with
      | .error e => .error e
      | .ok bs => .ok (be32 d ++ bs)
    else .error (.unableToDownCastDocId d)

/-- One term record of `IndexWriter::write`: `u16::try_from` of the term
byte length, the term bytes, `u32::try_from` of the doc-id count, the
ids. -/
def writeTermEntry (term : String) (doc_ids : List Nat) :
    Except IndexWriterError (List Nat) :=
  if (strBytes term).length < 65536 then
    if doc_ids.length < 4294967296 then
      match writeDocIds doc_ids with
      | .error e => .error e
      | .ok idBytes =>
        .ok (be16 (strBytes term).length ++ strBytes term ++
          be32 doc_ids.length ++ idBytes)
    else .error (.unableToDownCastNumberOfDocIds doc_ids.length)
  else .error (.unableToDownCastTermLength term (strBytes term).length)

/-- The term loop of `IndexWriter::write` over the postings entries, in
the map's iteration order. -/
def writeTerms : PostingsList → Except IndexWriterError (List Nat)
  | [] => .ok []
  | (t, ds) :: rest =>
    match writeTermEntry t ds with
    | .error e => .error e
    | .ok bs =>
      match writeTerms rest with
      | .error e => .error e
      | .ok bss => .ok (bs ++ bss)

/-- The document loop of `IndexWriter::write`: `u32::try_from` of the
content byte length, then the content bytes. -/
def writeDocs : List Document → Except IndexWriterError (List Nat)
  | [] => .ok []
  | d :: ds =>
    if (strBytes d.content).length < 4294967296 then
      match writeDocs ds with
      | .error e => .error e
      | .ok bs => .ok (be32 (strBytes d.content).length ++
          strBytes d.content ++ bs)
    else .error (.unableToDownCastDocLength (strBytes d.content).length)

/-- Function `IndexWriter::write` from `lib.rs`: postings count, term records,
document count, document records, with every narrowing checked in the
source's order of first failure. -/
def IndexWriter.write (w : IndexWriter) : Except IndexWriterError (List Nat) :=
  if w.postings.length < 4294967296 then
    match writeTerms w.postings with
    | .error e => .error e
    | .ok termBytes =>
      if w.docs.length < 4294967296 then
        match writeDocs w.docs with
        | .error e => .error e
        | .ok docBytes =>
          .ok (be32 w.postings.length ++ termBytes ++
            be32 w.docs.length ++ docBytes)
      else .error (.unableToDownCastNumberOfDocs w.docs.length)
  else .error (.unableToDownCastPostingsLength w.postings.length)

deriving instance DecidableEq for Except

/-! ## Build-side invariants -/

/-- Keys of a postings map. -/
def plKeys (p : PostingsList) : List String :=
  p.map Prod.fst

/-- Every doc id in every posting list is below `n`. -/
def allIdsLt (p : PostingsList) (n : Nat) : Prop :=
  ∀ kv ∈ p, ∀ i ∈ kv.2, i < n

theorem lookupPL_eq_none_iff (k : String) (p : PostingsList) :
    lookupPL k p = none ↔ k ∉ plKeys p := by
  induction p with
  | nil => simp [lookupPL, plKeys]
  | cons kv rest ih =>
    obtain ⟨k', v⟩ := kv
    by_cases h : k' = k
    · subst h
      simp [lookupPL, plKeys]
    · simp [lookupPL, h, plKeys, Ne.symm h] at ih ⊢
      exact ih

theorem mem_of_lookupPL (k : String) (v : List Nat) (p : PostingsList)
    (h : lookupPL k p = some v) : (k, v) ∈ p := by
  induction p with
  | nil => simp [lookupPL] at h
  | cons kv rest ih =>
    obtain ⟨k', v'⟩ := kv
    by_cases hk : k' = k
    · subst hk
      simp [lookupPL] at h
      simp [h]
    · simp [lookupPL, hk] at h
      simp [ih h]

theorem lookupPL_of_mem (k : String) (v : List Nat) (p : PostingsList)
    (hnd : (plKeys p).Nodup) (h : (k, v) ∈ p) : lookupPL k p = some v := by
  induction p with
  | nil => simp at h
  | cons kv rest ih =>
    obtain ⟨k', v'⟩ := kv
    simp only [plKeys, List.map_cons, List.nodup_cons] at hnd
    rcases List.mem_cons.mp h with h1 | h1
    · obtain ⟨hk, hv⟩ := Prod.mk.injEq .. ▸ h1
      simp only [Prod.mk.injEq] at h1
      simp [lookupPL, h1.1, h1.2]
    · have hkne : k' ≠ k := by
        intro he
        subst he
        exact hnd.1 (List.mem_map.mpr ⟨(k', v), h1, rfl⟩)
      simp [lookupPL, hkne]
      exact ih hnd.2 h1

theorem lookupPL_addTerm (t : String) (id : Nat) (k : String)
    (p : PostingsList) :
    lookupPL k (addTermToPostings t id p) =
      if k = t then some ((lookupPL t p).getD [] ++ [id])
      else lookupPL k p := by
  induction p with
  | nil =>
    by_cases h : k = t
    · subst h
      simp [addTermToPostings, lookupPL]
    · have h2 : ¬(t = k) := fun he => h he.symm
      simp [addTermToPostings, lookupPL, h, h2]
  | cons kv rest ih =>
    obtain ⟨k', v'⟩ := kv
    by_cases ht : k' = t
    · subst ht
      by_cases hk : k' = k
      · subst hk
        simp [addTermToPostings, lookupPL]
      · have hk2 : ¬(k = k') := fun he => hk he.symm
        simp [addTermToPostings, lookupPL, hk, hk2]
    · by_cases hk : k' = k
      · subst hk
        have h1 : ¬(k' = t) := ht
        have h2 : ¬(t = k') := fun he => ht he.symm
        simp [addTermToPostings, lookupPL, h1, h2]
      · simp [addTermToPostings, lookupPL, ht, hk, ih]

theorem plKeys_addTerm_of_mem (t : String) (id : Nat) (p : PostingsList)
    (h : t ∈ plKeys p) : plKeys (addTermToPostings t id p) = plKeys p := by
  induction p with
  | nil => simp [plKeys] at h
  | cons kv rest ih =>
    obtain ⟨k', v'⟩ := kv
    by_cases ht : k' = t
    · subst ht
      simp [addTermToPostings, plKeys]
    · have h' : t ∈ plKeys rest := by
        have hh : t = k' ∨ t ∈ plKeys rest := by simpa [plKeys] using h
        rcases hh with h1 | h1
        · exact absurd h1.symm ht
        · exact h1
      have ih' := ih h'
      simp only [plKeys] at ih' ⊢
      simp [addTermToPostings, ht, ih']

theorem plKeys_addTerm_of_not_mem (t : String) (id : Nat) (p : PostingsList)
    (h : t ∉ plKeys p) : plKeys (addTermToPostings t id p) = plKeys p ++ [t] := by
  induction p with
  | nil => simp [addTermToPostings, plKeys]
  | cons kv rest ih =>
    obtain ⟨k', v'⟩ := kv
    have hh : ¬(t = k' ∨ t ∈ plKeys rest) := by simpa [plKeys] using h
    push_neg at hh
    have ht : k' ≠ t := fun he => hh.1 he.symm
    have ih' := ih hh.2
    simp only [plKeys] at ih' ⊢
    simp [addTermToPostings, ht, ih']

theorem plKeys_addTerm_nodup (t : String) (id : Nat) (p : PostingsList)
    (h : (plKeys p).Nodup) : (plKeys (addTermToPostings t id p)).Nodup := by
  by_cases hm : t ∈ plKeys p
  · rw [plKeys_addTerm_of_mem t id p hm]
    exact h
  · rw [plKeys_addTerm_of_not_mem t id p hm]
    simp [List.nodup_append, h, hm]

theorem allIdsLt_addTerm (t : String) (id : Nat) (p : PostingsList) (n : Nat)
    (hp : allIdsLt p n) (hid : id < n) :
    allIdsLt (addTermToPostings t id p) n := by
  induction p with
  | nil =>
    intro kv hkv i hi
    simp [addTermToPostings] at hkv
    subst hkv
    simp at hi
    omega
  | cons kv' rest ih =>
    obtain ⟨k', v'⟩ := kv'
    have hrest : allIdsLt rest n := fun kv h => hp kv (List.mem_cons_of_mem _ h)
    have hhead : ∀ i ∈ v', i < n := fun i hi => hp (k', v') (by simp) i hi
    intro kv hkv i hi
    by_cases ht : k' = t
    · subst ht
      rw [show addTermToPostings k' id ((k', v') :: rest)
          = (k', v' ++ [id]) :: rest by simp [addTermToPostings]] at hkv
      rcases List.mem_cons.mp hkv with hkv | hkv
      · subst hkv
        simp only [List.mem_append, List.mem_singleton] at hi
        rcases hi with hi | hi
        · exact hhead i hi
        · omega
      · exact hrest kv hkv i hi
    · rw [show addTermToPostings t id ((k', v') :: rest)
          = (k', v') :: addTermToPostings t id rest
          by simp [addTermToPostings, ht]] at hkv
      rcases List.mem_cons.mp hkv with hkv | hkv
      · subst hkv
        exact hhead i hi
      · exact ih hrest kv hkv i hi

/-- The postings update of one `add` call: fold of
`entry(term).or_insert(..).push(doc_id)` over the document's terms. -/
def addAllTerms (ts : List String) (id : Nat) (p : PostingsList) : PostingsList :=
  ts.foldl (fun p t => addTermToPostings t id p) p

theorem IndexWriter.add_postings (w : IndexWriter) (d : AnalyzedDocument) :
    (w.add d).postings = addAllTerms d.terms w.docs.length w.postings := rfl

theorem IndexWriter.add_docs (w : IndexWriter) (d : AnalyzedDocument) :
    (w.add d).docs = w.docs ++ [{ content := d.content }] := rfl

theorem lookupPL_addAllTerms (ts : List String) (id : Nat) (k : String)
    (hnd : ts.Nodup) (p : PostingsList) :
    lookupPL k (addAllTerms ts id p) =
      if k ∈ ts then some ((lookupPL k p).getD [] ++ [id])
      else lookupPL k p := by
  induction ts generalizing p with
  | nil => simp [addAllTerms]
  | cons t ts ih =>
    have hnd' : ts.Nodup := hnd.of_cons
    have hstep : addAllTerms (t :: ts) id p = addAllTerms ts id (addTermToPostings t id p) := rfl
    rw [hstep, ih hnd']
    by_cases hk : k = t
    · subst hk
      have hkts : k ∉ ts := (List.nodup_cons.mp hnd).1
      simp [hkts, lookupPL_addTerm]
    · by_cases hts : k ∈ ts
      · simp [hts, hk, lookupPL_addTerm, List.mem_cons]
      · have : ¬(k ∈ t :: ts) := by simp [hk, hts]
        simp [hts, this, lookupPL_addTerm, hk]

theorem plKeys_addAllTerms_nodup (ts : List String) (id : Nat)
    (p : PostingsList) (h : (plKeys p).Nodup) :
    (plKeys (addAllTerms ts id p)).Nodup := by
  induction ts generalizing p with
  | nil => exact h
  | cons t ts ih => exact ih _ (plKeys_addTerm_nodup t id p h)

theorem allIdsLt_addAllTerms (ts : List String) (id : Nat) (p : PostingsList)
    (n : Nat) (hp : allIdsLt p n) (hid : id < n) :
    allIdsLt (addAllTerms ts id p) n := by
  induction ts generalizing p with
  | nil => exact hp
  | cons t ts ih => exact ih _ (allIdsLt_addTerm t id p n hp hid)

/-- The structural invariant of a build-side writer that needs no
assumption on the added documents: distinct postings keys and every
posted doc id below the document count. -/
def WriterB (w : IndexWriter) : Prop :=
  (plKeys w.postings).Nodup ∧ allIdsLt w.postings w.docs.length

/-- The full build-side invariant: additionally, every posting list is
strictly increasing. -/
def WriterOk (w : IndexWriter) : Prop :=
  WriterB w ∧ ∀ kv ∈ w.postings, kv.2.Pairwise (· < ·)

theorem allIdsLt_mono (p : PostingsList) (n m : Nat) (h : allIdsLt p n)
    (hnm : n ≤ m) : allIdsLt p m :=
  fun kv hkv i hi => lt_of_lt_of_le (h kv hkv i hi) hnm

theorem WriterB_add (w : IndexWriter) (d : AnalyzedDocument)
    (h : WriterB w) : WriterB (w.add d) := by
  obtain ⟨hnd, hlt⟩ := h
  constructor
  · rw [IndexWriter.add_postings]
    exact plKeys_addAllTerms_nodup _ _ _ hnd
  · rw [IndexWriter.add_postings]
    have hlen : (w.add d).docs.length = w.docs.length + 1 := by
      rw [IndexWriter.add_docs]
      simp
    rw [hlen]
    exact allIdsLt_addAllTerms _ _ _ _
      (allIdsLt_mono _ _ _ hlt (Nat.le_succ _)) (Nat.lt_succ_self _)

theorem WriterOk_add (w : IndexWriter) (d : AnalyzedDocument)
    (hterms : d.terms.Nodup) (h : WriterOk w) : WriterOk (w.add d) := by
  obtain ⟨hB, hpw⟩ := h
  refine ⟨WriterB_add w d hB, ?_⟩
  intro kv hkv
  have hndnew : (plKeys (w.add d).postings).Nodup := (WriterB_add w d hB).1
  have hlook : lookupPL kv.1 (w.add d).postings = some kv.2 := by
    obtain ⟨k, v⟩ := kv
    exact lookupPL_of_mem k v _ hndnew hkv
  rw [IndexWriter.add_postings,
    lookupPL_addAllTerms d.terms w.docs.length kv.1 hterms w.postings] at hlook
  by_cases hmem : kv.1 ∈ d.terms
  · rw [if_pos hmem] at hlook
    have hv : kv.2 = (lookupPL kv.1 w.postings).getD [] ++ [w.docs.length] :=
      (Option.some.injEq .. ▸ hlook).symm
    cases hold : lookupPL kv.1 w.postings with
    | none =>
      rw [hold] at hv
      simp at hv
      rw [hv]
      simp
    | some v0 =>
      rw [hold] at hv
      simp only [Option.getD_some] at hv
      have hmem0 : (kv.1, v0) ∈ w.postings := mem_of_lookupPL _ _ _ hold
      have hpw0 : v0.Pairwise (· < ·) := hpw (kv.1, v0) hmem0
      have hbd : ∀ i ∈ v0, i < w.docs.length :=
        fun i hi => hB.2 (kv.1, v0) hmem0 i hi
      rw [hv, List.pairwise_append]
      exact ⟨hpw0, List.pairwise_singleton _ _, fun a ha b hb => by
        simp only [List.mem_singleton] at hb
        subst hb
        exact hbd a ha⟩
  · rw [if_neg hmem] at hlook
    exact hpw kv (mem_of_lookupPL kv.1 kv.2 _ (by
      obtain ⟨k, v⟩ := kv
      exact hlook))

theorem WriterB_addAll_from (ds : List AnalyzedDocument) :
    ∀ w, WriterB w → WriterB (ds.foldl IndexWriter.add w) := by
  induction ds with
  | nil => exact fun w h => h
  | cons d ds ih =>
    intro w h
    exact ih _ (WriterB_add w d h)

theorem WriterOk_addAll_from (ds : List AnalyzedDocument)
    (hterms : ∀ d ∈ ds, d.terms.Nodup) :
    ∀ w, WriterOk w → WriterOk (ds.foldl IndexWriter.add w) := by
  induction ds with
  | nil => exact fun w h => h
  | cons d ds ih =>
    intro w h
    exact ih (fun d hd => hterms d (List.mem_cons_of_mem _ hd)) _
      (WriterOk_add w d (hterms d (by simp)) h)

theorem WriterB_addAll (ds : List AnalyzedDocument) : WriterB (addAll ds) :=
  WriterB_addAll_from ds IndexWriter.default
    ⟨List.nodup_nil, fun kv hkv => by simp [IndexWriter.default] at hkv⟩

theorem WriterOk_addAll (ds : List AnalyzedDocument)
    (hterms : ∀ d ∈ ds, d.terms.Nodup) : WriterOk (addAll ds) :=
  WriterOk_addAll_from ds hterms IndexWriter.default
    ⟨⟨List.nodup_nil, fun kv hkv => by simp [IndexWriter.default] at hkv⟩,
      fun kv hkv => by simp [IndexWriter.default] at hkv⟩

/-! ## Claim theorems (C2, C6, C10) -/

/-- Claim C2, counterexample: `Index::read` performs no validation of
posting doc ids against the document count, so an index obtained through
the public interface (here: decoded from a byte source declaring one term
`"a"` with doc id 5 and zero documents) can violate the invariant that
every posted doc id is below the document count. -/
theorem read_violates_doc_id_bound :
    ∃ idx : Index,
      Index.read [0, 0, 0, 1, 0, 1, 97, 0, 0, 0, 1, 0, 0, 0, 5, 0, 0, 0, 0]
        = .ok idx ∧ ¬ allIdsLt idx.postings idx.docs.length := by
  refine ⟨{ docs := [], postings := [("a", [5])] }, by decide, fun h => ?_⟩
  have h5 := h ("a", [5]) (by simp) 5 (by simp)
  simp at h5

/-- Claim C2, amended: every `Index` converted from an `IndexWriter`
populated by `add` calls satisfies the invariant that each doc id in any
posting list is strictly below the length of the document list;
`Index::read` does not enforce this invariant. -/
theorem writer_doc_ids_bounded (ds : List AnalyzedDocument) :
    allIdsLt (addAll ds).postings (addAll ds).docs.length :=
  (WriterB_addAll ds).2

/-- Claim C6: writing the freshly constructed (default) empty writer
produces exactly the 8 zero bytes, and reading those 8 zero bytes yields
an index with no documents and no postings. -/
theorem empty_index_codec_fixture :
    IndexWriter.default.write = .ok [0, 0, 0, 0, 0, 0, 0, 0] ∧
    Index.read [0, 0, 0, 0, 0, 0, 0, 0] = .ok { docs := [], postings := [] } := by
  constructor <;> decide

/-- Claim C10: for a writer built from the default writer by any sequence
of `add` calls of analyzed documents (whose term sets, being sets, have no
duplicates), every term's posting list is strictly increasing. -/
theorem postings_strictly_increasing (ds : List AnalyzedDocument)
    (hterms : ∀ d ∈ ds, d.terms.Nodup) :
    ∀ kv ∈ (addAll ds).postings, kv.2.Pairwise (· < ·) :=
  (WriterOk_addAll ds hterms).2

/-- Witness for C10 at a concrete input: the posting list of `"hello"`
after adding two documents containing it is `[0, 1]`, strictly
increasing. -/
theorem postings_strictly_increasing_witness :
    List.Pairwise (· < ·) (("hello", [0, 1]) : String × List Nat).2 :=
  postings_strictly_increasing [analyze "hello world", analyze "world hello"]
    (by decide) ("hello", [0, 1]) (by decide)

/-! ## Analyzer lemmas (C8) -/

theorem toNat_ofNat_valid (n : Nat) (hv : n.isValidChar) :
    (Char.ofNat n).toNat = n := by
  simp only [Char.ofNat, hv, dif_pos, Char.ofNatAux, Char.toNat, UInt32.toNat]
  simp [BitVec.toNat_ofNatLt]

theorem lowerChar_toNat (c : Char) :
    (lowerChar c).toNat =
      if 65 ≤ c.toNat ∧ c.toNat ≤ 90 then c.toNat + 32 else c.toNat := by
  unfold lowerChar
  by_cases h : 65 ≤ c.toNat ∧ c.toNat ≤ 90
  · rw [if_pos h, if_pos h]
    exact toNat_ofNat_valid _ (Or.inl (by omega))
  · rw [if_neg h, if_neg h]

theorem isWordChar_lowerChar (c : Char) :
    isWordChar (lowerChar c) = isWordChar c := by
  unfold isWordChar
  rw [lowerChar_toNat]
  by_cases h : 65 ≤ c.toNat ∧ c.toNat ≤ 90
  · rw [if_pos h]
    simp only [decide_eq_decide]
    omega
  · rw [if_neg h]

theorem lowerChar_idem (c : Char) : lowerChar (lowerChar c) = lowerChar c := by
  unfold lowerChar
  by_cases h : 65 ≤ c.toNat ∧ c.toNat ≤ 90
  · rw [if_pos h]
    have ht : (Char.ofNat (c.toNat + 32)).toNat = c.toNat + 32 :=
      toNat_ofNat_valid _ (Or.inl (by omega))
    rw [if_neg (by omega)]
  · rw [if_neg h, if_neg h]

theorem map_lowerChar_idem (l : List Char) :
    (l.map lowerChar).map lowerChar = l.map lowerChar := by
  induction l with
  | nil => rfl
  | cons c l ih => simp [lowerChar_idem, ih]

theorem isEmpty_map {A B : Type} (f : A → B) (l : List A) :
    (l.map f).isEmpty = l.isEmpty := by
  cases l <;> rfl

theorem wordsAux_map_lowerChar (cs : List Char) :
    ∀ cur, wordsAux (cur.map lowerChar) (cs.map lowerChar)
      = (wordsAux cur cs).map (List.map lowerChar) := by
  induction cs with
  | nil =>
    intro cur
    cases cur with
    | nil => rfl
    | cons a cur' => simp [wordsAux, List.map_reverse]
  | cons c cs ih =>
    intro cur
    by_cases hw : isWordChar c
    · simp only [List.map_cons, wordsAux, isWordChar_lowerChar, hw, if_true]
      exact ih (c :: cur)
    · cases cur with
      | nil =>
        simp only [List.map_nil, List.map_cons, wordsAux, isWordChar_lowerChar,
          hw, Bool.false_eq_true, if_false, List.isEmpty_nil, if_true]
        exact ih []
      | cons a cur' =>
        simp only [List.map_cons, wordsAux, isWordChar_lowerChar, hw,
          Bool.false_eq_true, if_false, List.isEmpty_cons, List.map_reverse]
        rw [show ([] : List Char) = [].map lowerChar from rfl, ih []]
        simp [List.map_reverse]

theorem to_lowercase_mk (w : List Char) :
    to_lowercase ⟨w⟩ = ⟨w.map lowerChar⟩ := rfl

theorem unicode_words_to_lowercase (s : String) :
    unicode_words (to_lowercase s) = (unicode_words s).map to_lowercase := by
  unfold unicode_words
  show (wordsAux [] ((s.data).map lowerChar)).map String.mk = _
  rw [show ([] : List Char) = [].map lowerChar from rfl,
    wordsAux_map_lowerChar s.data []]
  simp only [List.map_map]
  rfl

theorem to_lowercase_idem (s : String) :
    to_lowercase (to_lowercase s) = to_lowercase s := by
  show (⟨((s.data.map lowerChar)).map lowerChar⟩ : String) = ⟨s.data.map lowerChar⟩
  rw [map_lowerChar_idem]

theorem map_to_lowercase_idem (ws : List String) :
    (ws.map to_lowercase).map to_lowercase = ws.map to_lowercase := by
  induction ws with
  | nil => rfl
  | cons w ws ih => simp [to_lowercase_idem, ih]

/-- Claim C8: analysing a string and analysing its fully lowercased form
produce exactly the same term set. -/
theorem analyze_lowercase_idempotent (s : String) :
    (analyze s).terms = (analyze (to_lowercase s)).terms := by
  unfold analyze
  simp only
  rw [unicode_words_to_lowercase, map_to_lowercase_idem]

/-! ## Search lemmas (C3, C9) -/

theorem mem_uniqueAux {α : Type} [DecidableEq α] (x : α) (l seen : List α) :
    x ∈ uniqueAux seen l ↔ x ∈ l ∧ x ∉ seen := by
  induction l generalizing seen with
  | nil => simp [uniqueAux]
  | cons a l ih =>
    by_cases ha : a ∈ seen
    · rw [uniqueAux, if_pos ha, ih]
      constructor
      · exact fun ⟨h1, h2⟩ => ⟨List.mem_cons_of_mem _ h1, h2⟩
      · rintro ⟨h1, h2⟩
        rcases List.mem_cons.mp h1 with h1 | h1
        · subst h1
          exact absurd ha h2
        · exact ⟨h1, h2⟩
    · rw [uniqueAux, if_neg ha]
      constructor
      · intro h
        rcases List.mem_cons.mp h with h | h
        · subst h
          exact ⟨by simp, ha⟩
        · have := (ih (a :: seen)).mp h
          refine ⟨List.mem_cons_of_mem _ this.1, fun hx => this.2 ?_⟩
          exact List.mem_cons_of_mem _ hx
      · rintro ⟨h1, h2⟩
        rcases List.mem_cons.mp h1 with h1 | h1
        · subst h1
          exact List.mem_cons_self _ _
        · by_cases hxa : x = a
          · subst hxa
            exact List.mem_cons_self _ _
          · exact List.mem_cons_of_mem _ ((ih (a :: seen)).mpr
              ⟨h1, by simp [hxa, h2]⟩)

theorem nodup_uniqueAux {α : Type} [DecidableEq α] (l seen : List α) :
    (uniqueAux seen l).Nodup := by
  induction l generalizing seen with
  | nil => simp [uniqueAux]
  | cons a l ih =>
    by_cases ha : a ∈ seen
    · rw [uniqueAux, if_pos ha]
      exact ih seen
    · rw [uniqueAux, if_neg ha]
      refine List.nodup_cons.mpr ⟨fun hmem => ?_, ih (a :: seen)⟩
      exact ((mem_uniqueAux a l (a :: seen)).mp hmem).2 (by simp)

theorem mem_itertoolsUnique {α : Type} [DecidableEq α] (x : α) (l : List α) :
    x ∈ itertoolsUnique l ↔ x ∈ l := by
  rw [itertoolsUnique, mem_uniqueAux]
  simp

theorem nodup_itertoolsUnique {α : Type} [DecidableEq α] (l : List α) :
    (itertoolsUnique l).Nodup :=
  nodup_uniqueAux l []

theorem mem_gatherIds (i : Nat) (p : PostingsList) (ts : List String) :
    i ∈ gatherIds p ts ↔
      ∃ t ∈ ts, ∃ ids, lookupPL t p = some ids ∧ i ∈ ids := by
  induction ts with
  | nil => simp [gatherIds]
  | cons t ts ih =>
    rw [gatherIds, List.mem_append, ih]
    constructor
    · rintro (h | ⟨t', ht', ids, hl, hi⟩)
      · cases hl : lookupPL t p with
        | none => rw [hl] at h; simp at h
        | some ids =>
          rw [hl] at h
          exact ⟨t, by simp, ids, hl, by simpa using h⟩
      · exact ⟨t', List.mem_cons_of_mem _ ht', ids, hl, hi⟩
    · rintro ⟨t', ht', ids, hl, hi⟩
      rcases List.mem_cons.mp ht' with ht' | ht'
      · subst ht'
        left
        rw [hl]
        simpa using hi
      · exact Or.inr ⟨t', ht', ids, hl, hi⟩

theorem gatherIds_all_absent (p : PostingsList) (ts : List String)
    (h : ∀ t ∈ ts, lookupPL t p = none) : gatherIds p ts = [] := by
  induction ts with
  | nil => rfl
  | cons t ts ih =>
    rw [gatherIds, h t (by simp), ih (fun t' ht' => h t' (List.mem_cons_of_mem _ ht'))]
    rfl

theorem getDocs_of_bounded (docs : List Document) (ids : List Nat)
    (h : ∀ i ∈ ids, i < docs.length) :
    getDocs docs ids = some (ids.map (fun i => docs.getD i { content := "" })) := by
  induction ids with
  | nil => rfl
  | cons i ids ih =>
    have hi : i < docs.length := h i (by simp)
    have h1 : docs.get? i = some (docs.getD i { content := "" }) := by
      rw [List.get?_eq_get hi, List.getD_eq_get?, List.get?_eq_get hi]
      rfl
    rw [getDocs, h1, ih (fun j hj => h j (List.mem_cons_of_mem _ hj))]
    rfl

/-- Claim C3: `search` normalizes the query exactly as document analysis
does and deduplicates the tokens; on a well-formed index it succeeds,
returning the union over the matched terms' posting lists with each
document id at most once; an empty token list (e.g. the empty query)
yields an empty result, and absent query terms contribute nothing and
cause no failure. -/
theorem search_union_semantics (idx : Index) (q : String)
    (h : allIdsLt idx.postings idx.docs.length) :
    searchTokens q = (analyze q).terms ∧
    (searchTokens q).Nodup ∧
    (idx.searchIds q).Nodup ∧
    (∀ i, i ∈ idx.searchIds q ↔
      ∃ t ∈ searchTokens q, ∃ ids, lookupPL t idx.postings = some ids ∧ i ∈ ids) ∧
    idx.search q =
      some ((idx.searchIds q).map (fun i => idx.docs.getD i { content := "" })) ∧
    (searchTokens q = [] → idx.search q = some []) ∧
    ((∀ t ∈ searchTokens q, lookupPL t idx.postings = none) →
      idx.search q = some []) := by
  have hmem : ∀ i, i ∈ idx.searchIds q ↔
      ∃ t ∈ searchTokens q, ∃ ids, lookupPL t idx.postings = some ids ∧ i ∈ ids := by
    intro i
    rw [Index.searchIds, mem_itertoolsUnique, mem_gatherIds]
  have hbounded : ∀ i ∈ idx.searchIds q, i < idx.docs.length := by
    intro i hi
    obtain ⟨t, _, ids, hl, hid⟩ := (hmem i).mp hi
    exact h (t, ids) (mem_of_lookupPL t ids idx.postings hl) i hid
  have hsome : idx.search q =
      some ((idx.searchIds q).map (fun i => idx.docs.getD i { content := "" })) :=
    getDocs_of_bounded idx.docs (idx.searchIds q) hbounded
  refine ⟨?_, nodup_itertoolsUnique _, nodup_itertoolsUnique _, hmem, hsome, ?_, ?_⟩
  · rw [searchTokens, analyze, unicode_words_to_lowercase]
  · intro htoks
    rw [Index.search, Index.searchIds, htoks]
    rfl
  · intro habsent
    rw [Index.search, Index.searchIds, gatherIds_all_absent _ _ habsent]
    rfl

/-- Witness for C3 at a concrete index and query. -/
theorem search_union_semantics_witness :
    (Index.ofWriter (addAll [analyze "dogs and cats", analyze "cats"])).search
        "cats dogs"
      = some [{ content := "dogs and cats" }, { content := "cats" }] := by
  have h := search_union_semantics
    (Index.ofWriter (addAll [analyze "dogs and cats", analyze "cats"]))
    "cats dogs" (by unfold allIdsLt; decide)
  rw [h.2.2.2.2.1]
  decide

/-- The result-order specification of C9, written from the claim's words:
scan the deduplicated query tokens left to right; within each matched
term, scan its stored posting list in order; emit a doc id the first time
it is seen. -/
def specScanIds (postings : PostingsList) (toks : List String) : List Nat :=
  toks.foldl
    (fun acc t =>
      ((lookupPL t postings).getD []).foldl
        (fun acc2 i => if i ∈ acc2 then acc2 else acc2 ++ [i]) acc)
    []

theorem foldl_emit_eq_uniqueAux {α : Type} [DecidableEq α] (l : List α) :
    ∀ seen acc : List α, (∀ x, x ∈ seen ↔ x ∈ acc) →
      l.foldl (fun acc2 i => if i ∈ acc2 then acc2 else acc2 ++ [i]) acc
        = acc ++ uniqueAux seen l := by
  induction l with
  | nil => simp [uniqueAux]
  | cons a l ih =>
    intro seen acc hiff
    by_cases ha : a ∈ seen
    · rw [List.foldl_cons, if_pos ((hiff a).mp ha), uniqueAux, if_pos ha]
      exact ih seen acc hiff
    · rw [List.foldl_cons, if_neg (fun hx => ha ((hiff a).mpr hx)), uniqueAux,
        if_neg ha, ih (a :: seen) (acc ++ [a]) (fun x => by
          rw [List.mem_cons, List.mem_append, List.mem_singleton, hiff x, Or.comm]),
        List.append_assoc]
      rfl

theorem specScan_fold_general (postings : PostingsList) (ts : List String) :
    ∀ acc : List Nat,
      ts.foldl
        (fun acc t =>
          ((lookupPL t postings).getD []).foldl
            (fun acc2 i => if i ∈ acc2 then acc2 else acc2 ++ [i]) acc) acc
      = (gatherIds postings ts).foldl
          (fun acc2 i => if i ∈ acc2 then acc2 else acc2 ++ [i]) acc := by
  induction ts with
  | nil => intro acc; rfl
  | cons t ts ih =>
    intro acc
    rw [List.foldl_cons, gatherIds, List.foldl_append, ih]

theorem specScanIds_eq_foldl (postings : PostingsList) (toks : List String) :
    specScanIds postings toks =
      (gatherIds postings toks).foldl
        (fun acc2 i => if i ∈ acc2 then acc2 else acc2 ++ [i]) [] :=
  specScan_fold_general postings toks []

/-- Claim C9: the doc-id sequence produced by `search` is exactly the
first-occurrence scan described by the claim — query tokens left to
right, each matched posting list in stored order, each id emitted at most
once on first sight — and the returned documents are those ids' documents
in that order; a pure function of the index and the query. -/
theorem search_order_first_occurrence (idx : Index) (q : String) :
    idx.searchIds q = specScanIds idx.postings (searchTokens q) ∧
    idx.search q = getDocs idx.docs (idx.searchIds q) := by
  refine ⟨?_, rfl⟩
  rw [specScanIds_eq_foldl, Index.searchIds, itertoolsUnique,
    foldl_emit_eq_uniqueAux _ [] [] (fun x => by simp)]
  rfl

/-! ## Codec round-trip (C1) -/

/-- The byte image of a doc-id list (all ids in `u32` range). -/
def docIdsBytes : List Nat → List Nat
  | [] => []
  | d :: ds => be32 d ++ docIdsBytes ds

/-- The byte image of one term record. -/
def termEntryBytes (t : String) (ds : List Nat) : List Nat :=
  be16 (strBytes t).length ++ strBytes t ++ be32 ds.length ++ docIdsBytes ds

/-- The byte image of the postings section. -/
def termsBytes : PostingsList → List Nat
  | [] => []
  | (t, ds) :: rest => termEntryBytes t ds ++ termsBytes rest

/-- The byte image of the documents section. -/
def docsBytes : List Document → List Nat
  | [] => []
  | d :: ds =>
    be32 (strBytes d.content).length ++ strBytes d.content ++ docsBytes ds

/-- The full byte image produced by a successful `IndexWriter::write`. -/
def indexBytes (w : IndexWriter) : List Nat :=
  be32 w.postings.length ++ termsBytes w.postings ++
    be32 w.docs.length ++ docsBytes w.docs

/-- One term record fits the wire widths. -/
def entryFits (kv : String × List Nat) : Prop :=
  (strBytes kv.1).length < 65536 ∧ kv.2.length < 4294967296 ∧
    ∀ d ∈ kv.2, d < 4294967296

/-- All counts and lengths of a writer fit their wire widths: term count,
term byte lengths, posting-list lengths, doc ids, document count, content
byte lengths. -/
def fitsWire (w : IndexWriter) : Prop :=
  w.postings.length < 4294967296 ∧
  (∀ kv ∈ w.postings, entryFits kv) ∧
  w.docs.length < 4294967296 ∧
  ∀ d ∈ w.docs, (strBytes d.content).length < 4294967296

theorem string_mk_data (s : String) : (⟨s.data⟩ : String) = s := by
  cases s
  rfl

theorem document_mk_data (d : Document) :
    ({ content := ⟨d.content.data⟩ } : Document) = d := by
  cases d
  rw [string_mk_data]

theorem writeDocIds_ok (ds : List Nat) (h : ∀ d ∈ ds, d < 4294967296) :
    writeDocIds ds = .ok (docIdsBytes ds) := by
  induction ds with
  | nil => rfl
  | cons d ds ih =>
    rw [writeDocIds, if_pos (h d (by simp)),
      ih (fun d' hd' => h d' (List.mem_cons_of_mem _ hd'))]
    rfl

theorem writeTermEntry_ok (t : String) (ds : List Nat)
    (h : entryFits (t, ds)) :
    writeTermEntry t ds = .ok (termEntryBytes t ds) := by
  obtain ⟨h1, h2, h3⟩ := h
  rw [writeTermEntry, if_pos h1, if_pos h2, writeDocIds_ok ds h3]
  rfl

theorem writeTerms_ok (ps : PostingsList) (h : ∀ kv ∈ ps, entryFits kv) :
    writeTerms ps = .ok (termsBytes ps) := by
  induction ps with
  | nil => rfl
  | cons kv rest ih =>
    obtain ⟨t, ds⟩ := kv
    rw [writeTerms, writeTermEntry_ok t ds (h (t, ds) (by simp)),
      ih (fun kv' hkv' => h kv' (List.mem_cons_of_mem _ hkv'))]
    rfl

theorem writeDocs_ok (ds : List Document)
    (h : ∀ d ∈ ds, (strBytes d.content).length < 4294967296) :
    writeDocs ds = .ok (docsBytes ds) := by
  induction ds with
  | nil => rfl
  | cons d ds ih =>
    rw [writeDocs, if_pos (h d (by simp)),
      ih (fun d' hd' => h d' (List.mem_cons_of_mem _ hd'))]
    rfl

theorem write_ok (w : IndexWriter) (h : fitsWire w) :
    w.write = .ok (indexBytes w) := by
  obtain ⟨h1, h2, h3, h4⟩ := h
  simp only [IndexWriter.write, h1, if_true, writeTerms_ok _ h2, h3,
    writeDocs_ok _ h4, indexBytes]

theorem readDocIds_docIdsBytes (ds : List Nat) (h : ∀ d ∈ ds, d < 4294967296) :
    ∀ term tid idx rest,
      readDocIds term tid idx ds.length (docIdsBytes ds ++ rest)
        = .ok (ds, rest) := by
  induction ds with
  | nil => intro term tid idx rest; rfl
  | cons d ds ih =>
    intro term tid idx rest
    have hs : (d :: ds).length = ds.length + 1 := rfl
    rw [hs, docIdsBytes, List.append_assoc]
    simp only [readDocIds]
    rw [read_u32_be32 d _ (h d (by simp))]
    simp only []
    rw [ih (fun x hx => h x (List.mem_cons_of_mem _ hx)) term tid (idx + 1) rest]

theorem readTermEntry_termEntryBytes (t : String) (ds : List Nat)
    (h : entryFits (t, ds)) (tid : Nat) (rest : List Nat) :
    readTermEntry tid (termEntryBytes t ds ++ rest) = .ok ((t, ds), rest) := by
  obtain ⟨h1, h2, h3⟩ := h
  rw [termEntryBytes]
  simp only [List.append_assoc]
  rw [readTermEntry, read_u16_be16 _ _ h1]
  simp only []
  rw [List.take_left, List.drop_left, utf8Decode_strBytes t]
  simp only []
  rw [read_u32_be32 _ _ h2]
  simp only []
  rw [readDocIds_docIdsBytes ds h3 _ tid 0 rest]

theorem plKeys_cons (t : String) (ds : List Nat) (ps : PostingsList) :
    plKeys ((t, ds) :: ps) = t :: plKeys ps := rfl

theorem plKeys_append (a b : PostingsList) :
    plKeys (a ++ b) = plKeys a ++ plKeys b :=
  List.map_append _ _ _

theorem insertPL_not_mem (t : String) (ds : List Nat) (acc : PostingsList)
    (h : t ∉ plKeys acc) : insertPL t ds acc = acc ++ [(t, ds)] := by
  induction acc with
  | nil => rfl
  | cons kv rest ih =>
    obtain ⟨k, v⟩ := kv
    have hh : ¬(t = k ∨ t ∈ plKeys rest) := by simpa [plKeys] using h
    push_neg at hh
    have hk : k ≠ t := fun he => hh.1 he.symm
    rw [insertPL, if_neg hk, ih (by simpa [plKeys] using hh.2)]
    rfl

theorem readTerms_termsBytes (ps : PostingsList) :
    ∀ tid acc m rest, (∀ kv ∈ ps, entryFits kv) → (plKeys ps).Nodup →
      (∀ k ∈ plKeys ps, k ∉ plKeys acc) →
      readTerms tid acc (ps.length + m) (termsBytes ps ++ rest)
        = readTerms (tid + ps.length) (acc ++ ps) m rest := by
  induction ps with
  | nil =>
    intro tid acc m rest _ _ _
    simp [termsBytes]
  | cons kv ps ih =>
    obtain ⟨t, ds⟩ := kv
    intro tid acc m rest hfit hnd hdisj
    have hnd2 : t ∉ plKeys ps ∧ (plKeys ps).Nodup :=
      List.nodup_cons.mp (show (t :: plKeys ps).Nodup from hnd)
    have hs : ((t, ds) :: ps).length + m = (ps.length + m) + 1 := by
      simp only [List.length_cons]
      omega
    rw [hs, termsBytes, List.append_assoc]
    simp only [readTerms]
    rw [readTermEntry_termEntryBytes t ds (hfit (t, ds) (by simp)) tid _]
    simp only []
    have htacc : t ∉ plKeys acc :=
      hdisj t (show t ∈ t :: plKeys ps from by simp)
    rw [insertPL_not_mem t ds acc htacc]
    have hdisj2 : ∀ k ∈ plKeys ps, k ∉ plKeys (acc ++ [(t, ds)]) := by
      intro k hk hmem
      rw [plKeys_append] at hmem
      rcases List.mem_append.mp hmem with hm | hm
      · exact hdisj k (show k ∈ t :: plKeys ps from List.mem_cons_of_mem _ hk) hm
      · have hkt : k = t := by simpa [plKeys] using hm
        subst hkt
        exact hnd2.1 hk
    rw [ih (tid + 1) (acc ++ [(t, ds)]) m rest
      (fun kv2 hkv2 => hfit kv2 (List.mem_cons_of_mem _ hkv2)) hnd2.2 hdisj2]
    have harith : tid + 1 + ps.length = tid + ((t, ds) :: ps).length := by
      simp only [List.length_cons]
      omega
    rw [harith, List.append_assoc]
    rfl

theorem readDocs_docsBytes (ds : List Document) :
    ∀ did m rest, (∀ d ∈ ds, (strBytes d.content).length < 4294967296) →
      readDocs did (ds.length + m) (docsBytes ds ++ rest)
        = match readDocs (did + ds.length) m rest with
          | .error e => .error e
          | .ok (ds2, r2) => .ok (ds ++ ds2, r2) := by
  induction ds with
  | nil =>
    intro did m rest _
    simp only [List.length_nil, Nat.zero_add, docsBytes, List.nil_append,
      Nat.add_zero]
    cases readDocs did m rest with
    | error e => rfl
    | ok pr =>
      obtain ⟨ds2, r2⟩ := pr
      rfl
  | cons d ds ih =>
    intro did m rest hfit
    have hs : (d :: ds).length + m = (ds.length + m) + 1 := by
      simp only [List.length_cons]
      omega
    rw [hs, docsBytes]
    simp only [List.append_assoc]
    simp only [readDocs]
    rw [read_u32_be32 _ _ (hfit d (by simp))]
    simp only []
    rw [List.take_left, List.drop_left, utf8Decode_strBytes d.content]
    simp only []
    rw [ih (did + 1) m rest (fun d2 hd2 => hfit d2 (List.mem_cons_of_mem _ hd2))]
    have harith : did + 1 + ds.length = did + (d :: ds).length := by
      simp only [List.length_cons]
      omega
    rw [harith]
    cases readDocs (did + (d :: ds).length) m rest with
    | error e => rfl
    | ok pr =>
      obtain ⟨ds2, r2⟩ := pr
      rfl

theorem read_indexBytes (w : IndexWriter) (hk : (plKeys w.postings).Nodup)
    (hf : fitsWire w) : Index.read (indexBytes w) = .ok (Index.ofWriter w) := by
  obtain ⟨h1, h2, h3, h4⟩ := hf
  rw [indexBytes]
  simp only [List.append_assoc]
  rw [Index.read, read_u32_be32 _ _ h1]
  simp only []
  have hterms := readTerms_termsBytes w.postings 0 [] 0
    (be32 w.docs.length ++ docsBytes w.docs) h2 hk
    (by intro k hk2; simp [plKeys])
  rw [Nat.add_zero] at hterms
  simp only [readTerms, List.nil_append, Nat.zero_add] at hterms
  rw [hterms]
  simp only []
  rw [read_u32_be32 _ _ h3]
  simp only []
  have hdocs := readDocs_docsBytes w.docs 0 0 [] h4
  rw [Nat.add_zero, List.append_nil] at hdocs
  simp only [readDocs, List.append_nil] at hdocs
  rw [hdocs]
  rfl

/-- Claim C1: for an index built by a sequence of `add` calls whose term
count, term byte lengths, posting-list lengths, doc ids, document count
and content byte lengths all fit their wire widths, `write` succeeds and
`read` of the produced bytes succeeds, yielding an index with the same
document sequence and the same postings mapping. -/
theorem roundtrip_write_read (docsIn : List AnalyzedDocument)
    (hf : fitsWire (addAll docsIn)) :
    ∃ bs idx, (addAll docsIn).write = .ok bs ∧ Index.read bs = .ok idx ∧
      idx.docs = (addAll docsIn).docs ∧
      idx.postings = (addAll docsIn).postings :=
  ⟨indexBytes (addAll docsIn), Index.ofWriter (addAll docsIn),
    write_ok _ hf, read_indexBytes _ (WriterB_addAll docsIn).1 hf, rfl, rfl⟩

/-- Witness for C1 at a concrete two-document input. -/
theorem roundtrip_write_read_witness :
    ∃ bs idx,
      (addAll [analyze "dogs and cats", analyze "cats"]).write = .ok bs ∧
      Index.read bs = .ok idx ∧
      idx.docs = (addAll [analyze "dogs and cats", analyze "cats"]).docs ∧
      idx.postings = (addAll [analyze "dogs and cats", analyze "cats"]).postings :=
  roundtrip_write_read [analyze "dogs and cats", analyze "cats"]
    (by unfold fitsWire entryFits; decide)

/-! ## Encoding failure characterization (C5) -/

/-- The claim's oversized conditions: a term whose UTF-8 byte length
exceeds the `u16` range, or any count (term count, doc-id count, doc id,
document count, content byte length) exceeding the `u32` range. -/
def hasOversizedField (w : IndexWriter) : Prop :=
  (∃ kv ∈ w.postings, 65536 ≤ (strBytes kv.1).length) ∨
  4294967296 ≤ w.postings.length ∨
  (∃ kv ∈ w.postings, 4294967296 ≤ kv.2.length) ∨
  (∃ kv ∈ w.postings, ∃ d ∈ kv.2, 4294967296 ≤ d) ∨
  4294967296 ≤ w.docs.length ∨
  (∃ d ∈ w.docs, 4294967296 ≤ (strBytes d.content).length)

/-- The returned encoding error names a value of the writer that really
exceeds its wire width. -/
def carriesOversized (w : IndexWriter) : IndexWriterError → Prop
  | .unableToDownCastPostingsLength len =>
      len = w.postings.length ∧ 4294967296 ≤ len
  | .unableToDownCastTermLength term len =>
      (∃ ds, (term, ds) ∈ w.postings) ∧ len = (strBytes term).length ∧
        65536 ≤ len
  | .unableToDownCastNumberOfDocIds n =>
      (∃ kv ∈ w.postings, kv.2.length = n) ∧ 4294967296 ≤ n
  | .unableToDownCastDocId d =>
      (∃ kv ∈ w.postings, d ∈ kv.2) ∧ 4294967296 ≤ d
  | .unableToDownCastNumberOfDocs n =>
      n = w.docs.length ∧ 4294967296 ≤ n
  | .unableToDownCastDocLength len =>
      (∃ d ∈ w.docs, (strBytes d.content).length = len) ∧ 4294967296 ≤ len

/-- Shape of an error produced while encoding one term record. -/
def entryErrShape (t : String) (ds : List Nat) : IndexWriterError → Prop
  | .unableToDownCastTermLength term len =>
      term = t ∧ len = (strBytes t).length ∧ 65536 ≤ len
  | .unableToDownCastNumberOfDocIds n => n = ds.length ∧ 4294967296 ≤ n
  | .unableToDownCastDocId d => d ∈ ds ∧ 4294967296 ≤ d
  | _ => False

theorem writeDocIds_error (ds : List Nat) (e : IndexWriterError)
    (h : writeDocIds ds = .error e) :
    ∃ d ∈ ds, e = .unableToDownCastDocId d ∧ 4294967296 ≤ d := by
  induction ds with
  | nil => simp [writeDocIds] at h
  | cons d ds ih =>
    rw [writeDocIds] at h
    by_cases hd : d < 4294967296
    · rw [if_pos hd] at h
      cases hw : writeDocIds ds with
      | error e2 =>
        rw [hw] at h
        simp only [Except.error.injEq] at h
        subst h
        obtain ⟨d2, hd2, he, hb⟩ := ih hw
        exact ⟨d2, List.mem_cons_of_mem _ hd2, he, hb⟩
      | ok bs =>
        rw [hw] at h
        simp at h
    · rw [if_neg hd] at h
      simp only [Except.error.injEq] at h
      exact ⟨d, by simp, h.symm, by omega⟩

theorem writeTermEntry_error (t : String) (ds : List Nat)
    (e : IndexWriterError) (h : writeTermEntry t ds = .error e) :
    entryErrShape t ds e := by
  rw [writeTermEntry] at h
  by_cases h1 : (strBytes t).length < 65536
  · rw [if_pos h1] at h
    by_cases h2 : ds.length < 4294967296
    · rw [if_pos h2] at h
      cases hw : writeDocIds ds with
      | error e2 =>
        rw [hw] at h
        simp only [Except.error.injEq] at h
        subst h
        obtain ⟨d, hd, he, hb⟩ := writeDocIds_error ds e2 hw
        subst he
        exact ⟨hd, hb⟩
      | ok bs =>
        rw [hw] at h
        simp at h
    · rw [if_neg h2] at h
      simp only [Except.error.injEq] at h
      subst h
      exact ⟨rfl, by omega⟩
  · rw [if_neg h1] at h
    simp only [Except.error.injEq] at h
    subst h
    exact ⟨rfl, rfl, by omega⟩

theorem writeTerms_error (ps : PostingsList) (e : IndexWriterError)
    (h : writeTerms ps = .error e) :
    ∃ kv ∈ ps, entryErrShape kv.1 kv.2 e := by
  induction ps with
  | nil => simp [writeTerms] at h
  | cons kv ps ih =>
    obtain ⟨t, ds⟩ := kv
    rw [writeTerms] at h
    cases hw : writeTermEntry t ds with
    | error e2 =>
      rw [hw] at h
      simp only [Except.error.injEq] at h
      subst h
      exact ⟨(t, ds), by simp, writeTermEntry_error t ds e2 hw⟩
    | ok bs =>
      rw [hw] at h
      cases hw2 : writeTerms ps with
      | error e2 =>
        rw [hw2] at h
        simp only [Except.error.injEq] at h
        subst h
        obtain ⟨kv2, hkv2, hs⟩ := ih hw2
        exact ⟨kv2, List.mem_cons_of_mem _ hkv2, hs⟩
      | ok bs2 =>
        rw [hw2] at h
        simp at h

theorem writeDocs_error (ds : List Document) (e : IndexWriterError)
    (h : writeDocs ds = .error e) :
    ∃ d ∈ ds, e = .unableToDownCastDocLength (strBytes d.content).length ∧
      4294967296 ≤ (strBytes d.content).length := by
  induction ds with
  | nil => simp [writeDocs] at h
  | cons d ds ih =>
    rw [writeDocs] at h
    by_cases hd : (strBytes d.content).length < 4294967296
    · rw [if_pos hd] at h
      cases hw : writeDocs ds with
      | error e2 =>
        rw [hw] at h
        simp only [Except.error.injEq] at h
        subst h
        obtain ⟨d2, hd2, he, hb⟩ := ih hw
        exact ⟨d2, List.mem_cons_of_mem _ hd2, he, hb⟩
      | ok bs =>
        rw [hw] at h
        simp at h
    · rw [if_neg hd] at h
      simp only [Except.error.injEq] at h
      exact ⟨d, by simp, h.symm, by omega⟩

theorem write_error_carries (w : IndexWriter) (e : IndexWriterError)
    (h : w.write = .error e) : carriesOversized w e := by
  rw [IndexWriter.write] at h
  by_cases h1 : w.postings.length < 4294967296
  · rw [if_pos h1] at h
    cases ht : writeTerms w.postings with
    | error e2 =>
      rw [ht] at h
      simp only [Except.error.injEq] at h
      subst h
      obtain ⟨kv, hkv, hs⟩ := writeTerms_error w.postings e2 ht
      obtain ⟨t, ds⟩ := kv
      cases e2 with
      | unableToDownCastTermLength term len =>
        obtain ⟨he1, he2, he3⟩ := hs
        subst he1
        exact ⟨⟨ds, hkv⟩, he2, he3⟩
      | unableToDownCastNumberOfDocIds n =>
        obtain ⟨he1, he2⟩ := hs
        exact ⟨⟨(t, ds), hkv, he1.symm⟩, he2⟩
      | unableToDownCastDocId d =>
        obtain ⟨he1, he2⟩ := hs
        exact ⟨⟨(t, ds), hkv, he1⟩, he2⟩
      | unableToDownCastPostingsLength len => exact absurd hs (by simp [entryErrShape])
      | unableToDownCastNumberOfDocs n => exact absurd hs (by simp [entryErrShape])
      | unableToDownCastDocLength len => exact absurd hs (by simp [entryErrShape])
    | ok tb =>
      rw [ht] at h
      simp only [] at h
      by_cases h3 : w.docs.length < 4294967296
      · rw [if_pos h3] at h
        cases hd : writeDocs w.docs with
        | error e2 =>
          rw [hd] at h
          simp only [Except.error.injEq] at h
          subst h
          obtain ⟨d, hdm, he, hb⟩ := writeDocs_error w.docs e2 hd
          subst he
          exact ⟨⟨d, hdm, rfl⟩, hb⟩
        | ok db =>
          rw [hd] at h
          simp at h
      · rw [if_neg h3] at h
        simp only [Except.error.injEq] at h
        subst h
        exact ⟨rfl, by omega⟩
  · rw [if_neg h1] at h
    simp only [Except.error.injEq] at h
    subst h
    exact ⟨rfl, by omega⟩

theorem writeDocIds_ok_bounds (ds : List Nat) (bs : List Nat)
    (h : writeDocIds ds = .ok bs) : ∀ d ∈ ds, d < 4294967296 := by
  induction ds generalizing bs with
  | nil => simp
  | cons d ds ih =>
    rw [writeDocIds] at h
    by_cases hd : d < 4294967296
    · rw [if_pos hd] at h
      cases hw : writeDocIds ds with
      | error e2 =>
        rw [hw] at h
        simp at h
      | ok bs2 =>
        intro d2 hd2
        rcases List.mem_cons.mp hd2 with hd2 | hd2
        · subst hd2
          exact hd
        · exact ih bs2 hw d2 hd2
    · rw [if_neg hd] at h
      simp at h

theorem writeTermEntry_ok_fits (t : String) (ds : List Nat) (bs : List Nat)
    (h : writeTermEntry t ds = .ok bs) : entryFits (t, ds) := by
  rw [writeTermEntry] at h
  by_cases h1 : (strBytes t).length < 65536
  · rw [if_pos h1] at h
    by_cases h2 : ds.length < 4294967296
    · rw [if_pos h2] at h
      cases hw : writeDocIds ds with
      | error e2 =>
        rw [hw] at h
        simp at h
      | ok bs2 => exact ⟨h1, h2, writeDocIds_ok_bounds ds bs2 hw⟩
    · rw [if_neg h2] at h
      simp at h
  · rw [if_neg h1] at h
    simp at h

theorem writeTerms_ok_fits (ps : PostingsList) (bs : List Nat)
    (h : writeTerms ps = .ok bs) : ∀ kv ∈ ps, entryFits kv := by
  induction ps generalizing bs with
  | nil => simp
  | cons kv ps ih =>
    obtain ⟨t, ds⟩ := kv
    rw [writeTerms] at h
    cases hw : writeTermEntry t ds with
    | error e2 =>
      rw [hw] at h
      simp at h
    | ok bs1 =>
      rw [hw] at h
      cases hw2 : writeTerms ps with
      | error e2 =>
        rw [hw2] at h
        simp at h
      | ok bs2 =>
        intro kv2 hkv2
        rcases List.mem_cons.mp hkv2 with hkv2 | hkv2
        · subst hkv2
          exact writeTermEntry_ok_fits t ds bs1 hw
        · exact ih bs2 hw2 kv2 hkv2

theorem writeDocs_ok_fits (ds : List Document) (bs : List Nat)
    (h : writeDocs ds = .ok bs) :
    ∀ d ∈ ds, (strBytes d.content).length < 4294967296 := by
  induction ds generalizing bs with
  | nil => simp
  | cons d ds ih =>
    rw [writeDocs] at h
    by_cases hd : (strBytes d.content).length < 4294967296
    · rw [if_pos hd] at h
      cases hw : writeDocs ds with
      | error e2 =>
        rw [hw] at h
        simp at h
      | ok bs2 =>
        intro d2 hd2
        rcases List.mem_cons.mp hd2 with hd2 | hd2
        · subst hd2
          exact hd
        · exact ih bs2 hw d2 hd2
    · rw [if_neg hd] at h
      simp at h

theorem write_ok_fits (w : IndexWriter) (bs : List Nat)
    (h : w.write = .ok bs) : fitsWire w := by
  rw [IndexWriter.write] at h
  by_cases h1 : w.postings.length < 4294967296
  · rw [if_pos h1] at h
    cases ht : writeTerms w.postings with
    | error e2 =>
      rw [ht] at h
      simp at h
    | ok tb =>
      rw [ht] at h
      simp only [] at h
      by_cases h3 : w.docs.length < 4294967296
      · rw [if_pos h3] at h
        cases hd : writeDocs w.docs with
        | error e2 =>
          rw [hd] at h
          simp at h
        | ok db =>
          exact ⟨h1, writeTerms_ok_fits _ tb ht, h3, writeDocs_ok_fits _ db hd⟩
      · rw [if_neg h3] at h
        simp at h
  · rw [if_neg h1] at h
    simp at h

/-- Claim C5: a writer containing a term whose byte length exceeds the
`u16` range, or any count or doc id exceeding the `u32` range, is
rejected by `write` with an error that names the offending value; it is
never silently truncated into a successful encoding. -/
theorem oversized_field_rejected (w : IndexWriter)
    (h : hasOversizedField w) :
    ∃ e, w.write = .error e ∧ carriesOversized w e := by
  cases hw : w.write with
  | ok bs =>
    exfalso
    obtain ⟨f1, f2, f3, f4⟩ := write_ok_fits w bs hw
    rcases h with ⟨kv, hkv, hb⟩ | hb | ⟨kv, hkv, hb⟩ | ⟨kv, hkv, d, hd, hb⟩
      | hb | ⟨d, hd, hb⟩
    · have := (f2 kv hkv).1
      omega
    · omega
    · have := (f2 kv hkv).2.1
      omega
    · have := (f2 kv hkv).2.2 d hd
      omega
    · omega
    · have := f4 d hd
      omega
  | error e => exact ⟨e, rfl, write_error_carries w e hw⟩

/-- Witness for C5: a writer posting the doc id `2^32` is rejected with
an error naming that id. -/
theorem oversized_field_rejected_witness :
    ∃ e, (IndexWriter.mk [] [("a", [4294967296])]).write = .error e ∧
      carriesOversized (IndexWriter.mk [] [("a", [4294967296])]) e :=
  oversized_field_rejected (IndexWriter.mk [] [("a", [4294967296])])
    (by unfold hasOversizedField; right; right; right; left
        exact ⟨("a", [4294967296]), by simp, 4294967296, by simp, by omega⟩)

/-! ## Corrupt-input attribution (C4) and UTF-8 validity (C7) -/

/-- The term index carried by the errors of a term's read steps (term
length field, term bytes, doc-count field, doc ids); `none` for the other
read steps. -/
def errorTermIndex : IndexError → Option Nat
  | .unableToReadTermSize term_id => some term_id
  | .unableToReadTerm term_id => some term_id
  | .unableToReadNumberOfDocIds _ term_id => some term_id
  | .unableToReadDocId _ term_id _ => some term_id
  | _ => none

theorem readTermEntry_truncated (j c : Nat) (term : String)
    (hterm : (strBytes term).length < 65536)
    (hc : c < 2 + (strBytes term).length) :
    ∃ e, readTermEntry j ((be16 (strBytes term).length ++ strBytes term).take c)
        = .error e ∧ errorTermIndex e = some j := by
  match c with
  | 0 => exact ⟨.unableToReadTermSize j, rfl, rfl⟩
  | 1 => exact ⟨.unableToReadTermSize j, rfl, rfl⟩
  | c' + 2 =>
    have hc' : c' < (strBytes term).length := by omega
    have htake : (be16 (strBytes term).length ++ strBytes term).take (c' + 2)
        = ((strBytes term).length / 256 % 256) :: ((strBytes term).length % 256)
          :: (strBytes term).take c' := by
      simp [be16]
    rw [htake, readTermEntry]
    have hval : (strBytes term).length / 256 % 256 * 256 +
        (strBytes term).length % 256 = (strBytes term).length := by omega
    simp only [read_u16, hval]
    rw [List.take_take, Nat.min_eq_right (le_of_lt hc')]
    cases hdec : utf8Decode ((strBytes term).take c') with
    | none => exact ⟨.unableToReadTerm j, rfl, rfl⟩
    | some cs =>
      have hdrop : ((strBytes term).take c').drop (strBytes term).length = [] := by
        apply List.drop_eq_nil_of_le
        rw [List.length_take]
        omega
      rw [hdrop]
      exact ⟨.unableToReadNumberOfDocIds ⟨cs⟩ j, rfl, rfl⟩

/-- Claim C4: a byte stream holding the term count, the first `j` full
term records, and a truncated piece of term `j` that ends before that
term's declared bytes are complete, fails to decode with an error carrying
the term index `j`. -/
theorem truncated_term_read_attributed (T : Nat) (ps : PostingsList)
    (term : String) (c : Nat)
    (hT : T < 4294967296)
    (hfit : ∀ kv ∈ ps, entryFits kv)
    (hnd : (plKeys ps).Nodup)
    (hlen : ps.length < T)
    (hterm : (strBytes term).length < 65536)
    (hc : c < 2 + (strBytes term).length) :
    ∃ e, Index.read (be32 T ++ termsBytes ps ++
        (be16 (strBytes term).length ++ strBytes term).take c) = .error e ∧
      errorTermIndex e = some ps.length := by
  obtain ⟨e, he, hid⟩ := readTermEntry_truncated ps.length c term hterm hc
  refine ⟨e, ?_, hid⟩
  have hm : T = ps.length + ((T - ps.length - 1) + 1) := by omega
  have hchain : readTerms 0 [] T (termsBytes ps ++
      (be16 (strBytes term).length ++ strBytes term).take c) = .error e := by
    rw [hm, readTerms_termsBytes ps 0 [] _ _ hfit hnd
      (by intro k hk2; simp [plKeys])]
    simp only [Nat.zero_add, List.nil_append]
    simp only [readTerms]
    rw [he]
  rw [List.append_assoc, Index.read, read_u32_be32 _ _ hT]
  simp only []
  rw [hchain]

/-- Witness for C4: term count 1, then a declared 3-byte term `"foo"` cut
after its first two bytes; the read fails with the doc-count error for
term 0. -/
theorem truncated_term_read_attributed_witness :
    ∃ e, Index.read [0, 0, 0, 1, 0, 3, 102, 111] = .error e ∧
      errorTermIndex e = some 0 := by
  have h := truncated_term_read_attributed 1 [] "foo" 4 (by omega)
    (by simp) (by simp [plKeys]) (by simp) (by decide) (by decide)
  have hb : be32 1 ++ termsBytes [] ++
      (be16 (strBytes "foo").length ++ strBytes "foo").take 4
      = [0, 0, 0, 1, 0, 3, 102, 111] := by decide
  rw [hb] at h
  exact h

/-- Claim C7: a byte source whose declared term bytes (first conjunct) or
declared document content bytes (second conjunct) are not valid UTF-8
fails to decode, with the error attributed to that term's (resp. that
document's) content read step; invalid bytes are never replaced or
truncated into a successful result. -/
theorem invalid_utf8_read_fails :
    (∀ (T : Nat) (ps : PostingsList) (bb rest : List Nat),
      T < 4294967296 → (∀ kv ∈ ps, entryFits kv) → (plKeys ps).Nodup →
      ps.length < T → bb.length < 65536 → utf8Decode bb = none →
      Index.read (be32 T ++ termsBytes ps ++ be16 bb.length ++ bb ++ rest)
        = .error (.unableToReadTerm ps.length)) ∧
    (∀ (ps : PostingsList) (N : Nat) (dsPre : List Document)
        (bb rest : List Nat),
      ps.length < 4294967296 → (∀ kv ∈ ps, entryFits kv) →
      (plKeys ps).Nodup → N < 4294967296 →
      (∀ d ∈ dsPre, (strBytes d.content).length < 4294967296) →
      dsPre.length < N → bb.length < 4294967296 → utf8Decode bb = none →
      Index.read (be32 ps.length ++ termsBytes ps ++ be32 N ++
          docsBytes dsPre ++ be32 bb.length ++ bb ++ rest)
        = .error (.unableToReadDocContent dsPre.length)) := by
  constructor
  · intro T ps bb rest hT hfit hnd hlen hbb hdec
    have hentry : readTermEntry ps.length (be16 bb.length ++ (bb ++ rest))
        = .error (.unableToReadTerm ps.length) := by
      rw [readTermEntry, read_u16_be16 _ _ hbb]
      simp only []
      rw [List.take_left, hdec]
    have hm : T = ps.length + ((T - ps.length - 1) + 1) := by omega
    have hchain : readTerms 0 [] T (termsBytes ps ++ (be16 bb.length ++ (bb ++ rest)))
        = .error (.unableToReadTerm ps.length) := by
      rw [hm, readTerms_termsBytes ps 0 [] _ _ hfit hnd
        (by intro k hk2; simp [plKeys])]
      simp only [Nat.zero_add, List.nil_append]
      simp only [readTerms]
      rw [hentry]
    simp only [List.append_assoc]
    rw [Index.read, read_u32_be32 _ _ hT]
    simp only []
    rw [hchain]
  · intro ps N dsPre bb rest hT hfit hnd hN hdfit hdlen hbb hdec
    have hstep : readDocs dsPre.length ((N - dsPre.length - 1) + 1)
        (be32 bb.length ++ (bb ++ rest))
        = .error (.unableToReadDocContent dsPre.length) := by
      simp only [readDocs]
      rw [read_u32_be32 _ _ hbb]
      simp only []
      rw [List.take_left, hdec]
    have hm : N = dsPre.length + ((N - dsPre.length - 1) + 1) := by omega
    have hdocs : readDocs 0 N (docsBytes dsPre ++ (be32 bb.length ++ (bb ++ rest)))
        = .error (.unableToReadDocContent dsPre.length) := by
      rw [hm, readDocs_docsBytes dsPre 0 _ _ hdfit]
      simp only [Nat.zero_add]
      rw [hstep]
    have hterms := readTerms_termsBytes ps 0 [] 0
      (be32 N ++ (docsBytes dsPre ++ (be32 bb.length ++ (bb ++ rest))))
      hfit hnd (by intro k hk2; simp [plKeys])
    rw [Nat.add_zero] at hterms
    simp only [readTerms, List.nil_append, Nat.zero_add] at hterms
    simp only [List.append_assoc]
    rw [Index.read, read_u32_be32 _ _ hT]
    simp only []
    rw [hterms]
    simp only []
    rw [read_u32_be32 _ _ hN]
    simp only []
    rw [hdocs]

/-- Witness for C7: the byte `0xFF` as a declared 1-byte term (first
stream) and as a declared 1-byte document content (second stream) each
fail with the attributed error. -/
theorem invalid_utf8_read_fails_witness :
    Index.read [0, 0, 0, 1, 0, 1, 255] = .error (.unableToReadTerm 0) ∧
    Index.read [0, 0, 0, 0, 0, 0, 0, 1, 0, 0, 0, 1, 255]
      = .error (.unableToReadDocContent 0) := by
  constructor
  · have h := invalid_utf8_read_fails.1 1 [] [255] [] (by omega) (by simp)
      (by simp [plKeys]) (by simp) (by decide) (by decide)
    have hb : be32 1 ++ termsBytes [] ++ be16 [255].length ++ [255] ++ []
        = [0, 0, 0, 1, 0, 1, 255] := by decide
    rw [hb] at h
    exact h
  · have h := invalid_utf8_read_fails.2 [] 1 [] [255] [] (by decide) (by simp)
      (by simp [plKeys]) (by omega) (by simp) (by simp) (by decide) (by decide)
    have hb : be32 ([] : PostingsList).length ++ termsBytes [] ++ be32 1 ++
        docsBytes [] ++ be32 [255].length ++ [255] ++ ([] : List Nat)
        = [0, 0, 0, 0, 0, 0, 0, 1, 0, 0, 0, 1, 255] := by decide
    rw [hb] at h
    exact h
